import Mathlib

/-!
Verification of the dual-memory engine of the RAG-CAG chatbot repository.

Each component of `src/memoria` is shallowly embedded: pure Python functions
become Lean functions, Redis/Neo4j state becomes explicit lists of records,
and the Cypher queries the code issues are modelled as list transformations
with the exact filter, sort and limit semantics of the query text. Machine
floats are modelled as rationals where the code only compares and combines
them linearly, and as reals where the code calls `sqrt` or `exp`.
-/

namespace ContextWindow

/-- Model of `ContextWindowManager.__init__`: the window size is clamped with
`max(20, min(100, window_size))`. -/
def clamp_window_size (windowSize : ℕ) : ℕ :=
  max 20 (min 100 windowSize)

/-- Model of `ContextWindowManager.add_message`: `LPUSH` prepends the new
message, `LTRIM 0 (window_size - 1)` keeps the first `window_size` entries.
The Redis list for one user is modelled as a Lean list, newest first. -/
def add_message {M : Type} (windowSize : ℕ) (buffer : List M) (message : M) : List M :=
  (message :: buffer).take windowSize

/-- Model of `ContextWindowManager.get_context`: `limit = limit or window_size`
(Python `or`: `None` and `0` both fall back to the window size), then
`LRANGE 0 (limit - 1)` returns the first `limit` entries, newest first. -/
def get_context {M : Type} (windowSize : ℕ) (buffer : List M) (limit : Option ℕ) : List M :=
  let l := match limit with
    | none => windowSize
    | some n => if n = 0 then windowSize else n
  buffer.take l

/-- The buffer produced by a sequence of `add_message` calls, oldest call first. -/
def run_appends {M : Type} (windowSize : ℕ) (messages : List M) : List M :=
  messages.foldl (add_message windowSize) []

theorem add_message_length_le {M : Type} (w : ℕ) (buf : List M) (m : M) :
    (add_message w buf m).length ≤ w := by
  simp [add_message]

theorem take_append_take {M : Type} (w : ℕ) (l t : List M) :
    (l ++ t.take w).take w = (l ++ t).take w := by
  rw [List.take_append_eq_append_take, List.take_append_eq_append_take,
    List.take_take, min_eq_left (Nat.sub_le w l.length)]

theorem run_appends_foldl {M : Type} (w : ℕ) (messages buf : List M)
    (hbuf : buf.take w = buf) :
    messages.foldl (add_message w) buf = (messages.reverse ++ buf).take w := by
  induction messages generalizing buf with
  | nil => simp [hbuf]
  | cons m ms ih =>
    rw [List.foldl_cons]
    have h2 : add_message w buf m = (m :: buf).take w := rfl
    rw [h2, ih ((m :: buf).take w) (by rw [List.take_take, min_self]), take_append_take]
    rw [List.reverse_cons, List.append_assoc, List.singleton_append]

/-- Claim C6: for every configured size and every sequence of appends, the
stored buffer never exceeds the cap `max(20, min(100, window_size))`, the cap
itself lies in `[20, 100]`, and reading with `limit = cap` returns the
messages newest first (most recently appended first). -/
theorem context_window_bounded_and_newest_first {M : Type}
    (windowSize : ℕ) (messages : List M) :
    20 ≤ clamp_window_size windowSize ∧
    clamp_window_size windowSize ≤ 100 ∧
    (run_appends (clamp_window_size windowSize) messages).length
        ≤ clamp_window_size windowSize ∧
    get_context (clamp_window_size windowSize)
        (run_appends (clamp_window_size windowSize) messages)
        (some (clamp_window_size windowSize))
      = messages.reverse.take (clamp_window_size windowSize) := by
  set w := clamp_window_size windowSize with hw
  have hw20 : 20 ≤ w := le_max_left _ _
  have hrun : run_appends w messages = messages.reverse.take w := by
    rw [run_appends, run_appends_foldl w messages [] (by simp)]
    simp
  refine ⟨hw20, ?_, ?_, ?_⟩
  · rw [hw, clamp_window_size]
    omega
  · rw [hrun]
    simp
  · rw [hrun, get_context]
    have hne : w ≠ 0 := by omega
    simp only [hne, if_false, List.take_take, min_self]

end ContextWindow

namespace Promotion

/-- Model of `EmotionalState` (emotional_analyzer.py): a VAD record with a
confidence, a primary label, and a per-label score map. Scores are modelled as
rationals. -/
structure EmotionalState where
  valence : ℚ
  arousal : ℚ
  dominance : ℚ
  confidence : ℚ
  primary_emotion : String
  emotion_scores : List (String × ℚ)
deriving DecidableEq

/-- Model of `np.clip(x, lo, hi)`. -/
def clip (x lo hi : ℚ) : ℚ := min hi (max lo x)

/-- Model of `VADEmotionalAnalyzer.get_emotion_intensity`:
`(|valence| * 0.4 + arousal * 0.6) * confidence`, clipped to `[0, 1]`. -/
def get_emotion_intensity (es : EmotionalState) : ℚ :=
  clip ((|es.valence| * 0.4 + es.arousal * 0.6) * es.confidence) 0 1

/-- Model of a `MemoryMessage` as far as the promotion policy reads it:
content, role (`message_type`) and the nullable affect record. -/
structure MemoryMessage where
  content : String
  message_type : String
  emotional_state : Option EmotionalState
deriving DecidableEq

/-- The configured importance phrases of `_should_store_longterm`. -/
def important_keywords : List String :=
  ["remember", "important", "never forget", "always"]

/-- Python substring test `needle in haystack` on strings. -/
def str_contains (haystack needle : String) : Prop :=
  needle.toList <:+: haystack.toList

instance (h n : String) : Decidable (str_contains h n) :=
  inferInstanceAs (Decidable (_ <:+: _))

/-- Model of `MemoryManager._should_store_longterm`. The source is a chain of
early returns (`if cond: return True` four times, then `return False`), which
is the disjunction of the four conditions: affect intensity above 0.6 (only
when an affect record is present), content longer than 50 characters, role
`assistant`, or the lowercased content containing an importance phrase. -/
def should_store_longterm (m : MemoryMessage) : Bool :=
  (match m.emotional_state with
    | some es => decide ((0.6 : ℚ) < get_emotion_intensity es)
    | none => false) ||
  decide (50 < m.content.length) ||
  (m.message_type == "assistant") ||
  important_keywords.any (fun kw => decide (str_contains m.content.toLower kw))

theorem clip01_gt (x t : ℚ) (h0 : 0 ≤ t) (h1 : t < 1) : t < clip x 0 1 ↔ t < x := by
  rw [clip, lt_min_iff, lt_max_iff]
  constructor
  · rintro ⟨-, h | h⟩
    · exact absurd h (not_lt.mpr h0)
    · exact h
  · exact fun h => ⟨h1, Or.inr h⟩

/-- Claim C7: `should_store_longterm` is a pure function of the message
record (purity is inherent in the embedding: it is a Lean function), and it
returns `true` exactly when the unclipped affect intensity
`(0.4 * |valence| + 0.6 * arousal) * confidence` exceeds 0.6, or the content
length exceeds 50, or the role is `assistant`, or the lowercased content
contains one of the configured importance phrases. -/
theorem should_store_longterm_iff (m : MemoryMessage) :
    should_store_longterm m = true ↔
      ((∃ es, m.emotional_state = some es ∧
          0.6 < (|es.valence| * 0.4 + es.arousal * 0.6) * es.confidence) ∨
        50 < m.content.length ∨
        m.message_type = "assistant" ∨
        ∃ kw ∈ important_keywords, str_contains m.content.toLower kw) := by
  have hint : ∀ es : EmotionalState,
      ((0.6 : ℚ) < get_emotion_intensity es ↔
        0.6 < (|es.valence| * 0.4 + es.arousal * 0.6) * es.confidence) := by
    intro es
    exact clip01_gt _ _ (by norm_num) (by norm_num)
  rw [should_store_longterm]
  simp only [Bool.or_eq_true, decide_eq_true_iff, beq_iff_eq, List.any_eq_true]
  rcases hes : m.emotional_state with _ | es
  · simp [hes, or_assoc]
  · simp only [hes, Option.some.injEq, decide_eq_true_iff]
    constructor
    · rintro (((h | h) | h) | h)
      · exact Or.inl ⟨es, rfl, (hint es).mp h⟩
      · exact Or.inr (Or.inl h)
      · exact Or.inr (Or.inr (Or.inl h))
      · exact Or.inr (Or.inr (Or.inr h))
    · rintro (⟨es', hes', h⟩ | h | h | h)
      · cases hes'
        exact Or.inl (Or.inl (Or.inl ((hint es).mpr h)))
      · exact Or.inl (Or.inl (Or.inr h))
      · exact Or.inl (Or.inr h)
      · exact Or.inr h

end Promotion

namespace Consolidation

/-- Model of a `(:Memory)` node row as the consolidation pipeline reads it
from Neo4j. Timestamps are rationals measured in days; `consolidated` and
`retention_weight` are nullable properties; a null or missing
`emotional_state` map is modelled by the empty list. -/
structure MemoryNode where
  id : ℕ
  user_id : ℕ
  type : String
  consolidated : Option Bool
  timestamp : ℚ
  retention_weight : Option ℚ
  emotional_state : List (String × ℚ)
  embedding : Option (List ℝ)
  content : String

/-- Stable insertion step for `ORDER BY m.timestamp DESC`. -/
def insert_by_timestamp (m : MemoryNode) : List MemoryNode → List MemoryNode
  | [] => [m]
  | x :: rest =>
    if x.timestamp < m.timestamp then m :: x :: rest else x :: insert_by_timestamp m rest

/-- Model of `ORDER BY m.timestamp DESC` as a stable descending sort. -/
def sort_by_timestamp_desc (l : List MemoryNode) : List MemoryNode :=
  l.foldr insert_by_timestamp []

/-- One row's test of the candidate query's `WHERE` clause. Cypher gives
`AND` a higher precedence than `OR`, so
`consolidated IS NULL OR consolidated = false AND timestamp > now - 7 days`
parses as `consolidated IS NULL ∨ (consolidated = false ∧ recent)`; a
comparison with a null property is null, hence falsy. -/
def candidate_where (now : ℚ) (m : MemoryNode) : Bool :=
  m.consolidated == none ||
    (m.consolidated == some false && decide (now - 7 < m.timestamp))

/-- Model of `_find_consolidation_candidates`: match the user's episodic
nodes, apply the `WHERE` clause, order newest first, and keep at most 1000. -/
def find_consolidation_candidates (now : ℚ) (user_id : ℕ)
    (nodes : List MemoryNode) : List MemoryNode :=
  (sort_by_timestamp_desc
    (nodes.filter fun m =>
      m.user_id == user_id && m.type == "episodic" && candidate_where now m)).take 1000

/-- A stale node whose `consolidated` property was never written: 100 days
old, far outside the 7-day window of the spec. -/
def stale_unflagged_node : MemoryNode :=
  { id := 1, user_id := 7, type := "episodic", consolidated := none,
    timestamp := 900, retention_weight := none, emotional_state := [],
    embedding := none, content := "old episode" }

/-- Claim C4, failing input: at `now = 1000` (days), a 100-day-old episodic
node with `consolidated` unset is selected as a consolidation candidate by
the code, although the claim (and the query's own comment `// Last 7 days`)
requires every candidate's timestamp to lie within the last 7 days. The
mis-parenthesised `WHERE` clause admits it through the `IS NULL` disjunct. -/
theorem old_unflagged_node_is_selected :
    find_consolidation_candidates 1000 7 [stale_unflagged_node]
        = [stale_unflagged_node] ∧
      ¬ (1000 - 7 : ℚ) < stale_unflagged_node.timestamp := by
  constructor
  · rfl
  · rw [stale_unflagged_node]
    norm_num

/-- Model of the per-row update of `_apply_forgetting_curves`: rows matching
`user_id`, `type = 'episodic'`, `timestamp < now - 30 days` and
`retention_weight IS NULL OR retention_weight > 0.1` get
`retention_weight := CASE WHEN consolidated = true THEN 0.5 ELSE 0.1 END`
(`null = true` is falsy, so an unset `consolidated` takes the `ELSE`). -/
def aging_update (now : ℚ) (user_id : ℕ) (m : MemoryNode) : MemoryNode :=
  if m.user_id == user_id && m.type == "episodic" &&
      decide (m.timestamp < now - 30) &&
      (match m.retention_weight with
        | none => true
        | some w => decide ((1 : ℚ)/10 < w)) then
    { m with retention_weight := (some (if m.consolidated == some true then 1/2 else 1/10)) }
  else m

/-- Model of `_apply_forgetting_curves`: the `SET` query updates every
matching row of the user's graph. -/
def apply_forgetting_curves (now : ℚ) (user_id : ℕ)
    (nodes : List MemoryNode) : List MemoryNode :=
  nodes.map (aging_update now user_id)

/-- An episodic node 40 days old whose retention weight has already fallen to
0.05. -/
def decayed_node : MemoryNode :=
  { id := 2, user_id := 7, type := "episodic", consolidated := some false,
    timestamp := 960, retention_weight := some (1/20), emotional_state := [],
    embedding := none, content := "decayed episode" }

/-- Claim C9, counterexample: at `now = 1000`, the 40-day-old unconsolidated
node with `retention_weight = 0.05` is left untouched by the aging pass
(its weight is not `> 0.1`, so the query's `WHERE` skips it), although the
claim says every episodic node older than 30 days gets its retention weight
set to exactly 0.1 when not consolidated. -/
theorem aging_pass_skips_low_weight_node :
    (apply_forgetting_curves 1000 7 [decayed_node]).map MemoryNode.retention_weight
        = [some (1/20)] ∧
      ((1 : ℚ)/20 ≠ 1/10) ∧ decayed_node.timestamp < 1000 - 30 := by
  refine ⟨?_, by norm_num, ?_⟩
  · norm_num [apply_forgetting_curves, aging_update, decayed_node]
  · rw [decayed_node]
    norm_num

/-- Claim C9, amended: the aging pass maps each node independently; a node
of the user that is episodic, older than 30 days, and whose retention weight
is unset or above 0.1 gets weight exactly 0.5 when `consolidated = true` and
exactly 0.1 otherwise; every other node — younger ones, other users' nodes,
non-episodic ones, and nodes already at weight at most 0.1 — is returned
unchanged. -/
theorem aging_pass_spec (now : ℚ) (user_id : ℕ) (nodes : List MemoryNode)
    (m : MemoryNode) :
    (apply_forgetting_curves now user_id nodes = nodes.map (aging_update now user_id)) ∧
    (m.user_id = user_id → m.type = "episodic" → m.timestamp < now - 30 →
      (m.retention_weight = none ∨ ∃ w, m.retention_weight = some w ∧ 1/10 < w) →
      (aging_update now user_id m).retention_weight =
        some (if m.consolidated = some true then 1/2 else 1/10)) ∧
    ((¬ m.timestamp < now - 30) ∨ m.user_id ≠ user_id ∨ m.type ≠ "episodic" ∨
        (∃ w, m.retention_weight = some w ∧ w ≤ 1/10) →
      aging_update now user_id m = m) := by
  refine ⟨rfl, ?_, ?_⟩
  · intro hu ht hts hw
    have hcond : (m.user_id == user_id && m.type == "episodic" &&
        decide (m.timestamp < now - 30) &&
        (match m.retention_weight with
          | none => true
          | some w => decide ((1 : ℚ)/10 < w))) = true := by
      rcases hw with hw | ⟨w, hw, hgt⟩
      · simp [hu, ht, hts, hw]
      · have hgt10 : (10 : ℚ)⁻¹ < w := by rw [← one_div]; exact hgt
        simp [hu, ht, hts, hw, hgt10]
    rw [aging_update, if_pos hcond]
    rcases hc : m.consolidated with _ | b
    · simp [hc]
    · rcases b
      · simp [hc]
      · simp [hc]
  · intro h
    rw [aging_update]
    apply if_neg
    intro hcond
    simp only [Bool.and_eq_true, beq_iff_eq, decide_eq_true_iff] at hcond
    obtain ⟨⟨⟨hu, ht⟩, hts⟩, hw⟩ := hcond
    rcases h with h | h | h | ⟨w, hww, hle⟩
    · exact h hts
    · exact h hu
    · exact h ht
    · rw [hww] at hw
      exact absurd (of_decide_eq_true hw) (not_lt.mpr hle)

/-- Witness for the amended C9 theorem at a concrete young node: applying the
aging pass to a node only 10 days old leaves it unchanged. -/
theorem aging_pass_spec_witness :
    aging_update 1000 7
        { id := 3, user_id := 7, type := "episodic", consolidated := none,
          timestamp := 990, retention_weight := none, emotional_state := [],
          embedding := none, content := "young" } =
      { id := 3, user_id := 7, type := "episodic", consolidated := none,
        timestamp := 990, retention_weight := none, emotional_state := [],
        embedding := none, content := "young" } :=
  (aging_pass_spec 1000 7 []
      { id := 3, user_id := 7, type := "episodic", consolidated := none,
        timestamp := 990, retention_weight := none, emotional_state := [],
        embedding := none, content := "young" }).2.2
    (Or.inl (by norm_num))

end Consolidation

namespace Cosine

/-- Dot product of two embedding vectors, on their common length (model of
`np.dot` on equal-length vectors; a shorter list truncates the longer one). -/
def dot (u v : List ℝ) : ℝ := (List.zipWith (fun a b => a * b) u v).sum

/-- Model of `np.linalg.norm`: the Euclidean norm. -/
noncomputable def l2norm (u : List ℝ) : ℝ := Real.sqrt (dot u u)

/-- Cosine similarity `u . v / (|u| |v|)` as every component of the code
computes it (`1 - scipy.cosine`, the Cypher `dot / (norm_a * norm_b)`, and
`np.dot / (np.linalg.norm * np.linalg.norm)`). Division by a zero norm is 0
in this model. -/
noncomputable def cosine_similarity (u v : List ℝ) : ℝ :=
  dot u v / (l2norm u * l2norm v)

theorem dot_nil (v : List ℝ) : dot [] v = 0 := rfl

theorem dot_cons (a b : ℝ) (u v : List ℝ) :
    dot (a :: u) (b :: v) = a * b + dot u v := by
  simp [dot]

theorem dot_self_nonneg (u : List ℝ) : 0 ≤ dot u u := by
  induction u with
  | nil => simp [dot]
  | cons a u ih =>
    rw [dot_cons]
    exact add_nonneg (mul_self_nonneg a) ih

theorem dot_nonneg (u v : List ℝ) (hu : ∀ x ∈ u, 0 ≤ x) (hv : ∀ y ∈ v, 0 ≤ y) :
    0 ≤ dot u v := by
  induction u generalizing v with
  | nil => simp [dot]
  | cons a u ih =>
    cases v with
    | nil => simp [dot]
    | cons b v =>
      rw [dot_cons]
      refine add_nonneg (mul_nonneg (hu a (by simp)) (hv b (by simp))) ?_
      exact ih v (fun x hx => hu x (List.mem_cons_of_mem a hx))
        (fun y hy => hv y (List.mem_cons_of_mem b hy))

theorem dot_sq_le (u v : List ℝ) : (dot u v) ^ 2 ≤ dot u u * dot v v := by
  induction u generalizing v with
  | nil => simp [dot]
  | cons a u ih =>
    cases v with
    | nil => simp [dot, dot_self_nonneg, mul_nonneg]
    | cons b v =>
      have h := ih v
      have hU := dot_self_nonneg u
      have hV := dot_self_nonneg v
      simp only [dot_cons]
      rcases eq_or_lt_of_le hV with hV0 | hVpos
      · have hD : dot u v = 0 := by
          have : (dot u v) ^ 2 ≤ 0 := by rw [← hV0] at h; simpa using h
          exact pow_eq_zero_iff (n := 2) (by norm_num) |>.mp (le_antisymm this (sq_nonneg _))
        rw [hD, ← hV0]
        nlinarith [sq_nonneg (a * b), mul_nonneg hU (mul_self_nonneg b)]
      · nlinarith [sq_nonneg (a * dot v v - b * dot u v),
          mul_le_mul_of_nonneg_left h (sq_nonneg b),
          mul_le_mul_of_nonneg_right h (le_of_lt hVpos)]

theorem dot_le_norms (u v : List ℝ) : dot u v ≤ l2norm u * l2norm v := by
  have h1 : dot u v ≤ |dot u v| := le_abs_self _
  have h2 : |dot u v| = Real.sqrt ((dot u v) ^ 2) := (Real.sqrt_sq_eq_abs _).symm
  have h3 : Real.sqrt ((dot u v) ^ 2) ≤ Real.sqrt (dot u u * dot v v) :=
    Real.sqrt_le_sqrt (dot_sq_le u v)
  rw [Real.sqrt_mul (dot_self_nonneg u)] at h3
  calc dot u v ≤ |dot u v| := h1
    _ = Real.sqrt ((dot u v) ^ 2) := h2
    _ ≤ l2norm u * l2norm v := h3

theorem cosine_similarity_le_one (u v : List ℝ) : cosine_similarity u v ≤ 1 := by
  rw [cosine_similarity]
  rcases eq_or_lt_of_le
      (mul_nonneg (Real.sqrt_nonneg (dot u u)) (Real.sqrt_nonneg (dot v v))) with h0 | hpos
  · rw [l2norm, l2norm, ← h0, div_zero]
    exact zero_le_one
  · rw [div_le_one (by exact hpos)]
    exact dot_le_norms u v

theorem cosine_similarity_nonneg (u v : List ℝ)
    (hu : ∀ x ∈ u, 0 ≤ x) (hv : ∀ y ∈ v, 0 ≤ y) :
    0 ≤ cosine_similarity u v := by
  rw [cosine_similarity]
  exact div_nonneg (dot_nonneg u v hu hv)
    (mul_nonneg (Real.sqrt_nonneg _) (Real.sqrt_nonneg _))

end Cosine

namespace Consolidation

/-- The pattern kinds `_detect_patterns` produces. -/
inductive PatternType
  | emotional
  | semantic
deriving DecidableEq

/-- Model of a pattern dict built by `_detect_patterns`: emotional patterns
carry the shared label, semantic ones the member contents. -/
structure Pattern where
  type : PatternType
  emotion : Option String
  episode_ids : List ℕ
  contents : Option (List String)
  count : ℕ
deriving DecidableEq

/-- Model of `max(emotions.items(), key=lambda x: x[1])[0]`: the label of the
first pair carrying the maximal score (Python `max` keeps the first maximal
element); `'neutral'` for an empty map (dead branch, the caller already
checked non-emptiness). -/
def dominant_emotion (emotions : List (String × ℚ)) : String :=
  match emotions with
  | [] => "neutral"
  | p :: rest => (rest.foldl (fun best q => if best.2 < q.2 then q else best) p).1

/-- Append a memory to its label's bucket, keeping first-seen label order
(model of `defaultdict(list)` writes iterated in insertion order). -/
def add_to_group (groups : List (String × List MemoryNode)) (label : String)
    (m : MemoryNode) : List (String × List MemoryNode) :=
  match groups with
  | [] => [(label, [m])]
  | (k, ms) :: rest =>
    if k = label then (k, ms ++ [m]) :: rest else (k, ms) :: add_to_group rest label m

/-- Model of the emotional grouping loop of `_detect_patterns`: memories with
a truthy `emotional_state` are bucketed by dominant label. -/
def emotional_groups (memories : List MemoryNode) : List (String × List MemoryNode) :=
  memories.foldl
    (fun acc m =>
      if m.emotional_state.isEmpty then acc
      else add_to_group acc (dominant_emotion m.emotional_state) m)
    []

/-- The quantity the clustering loop of `_detect_patterns` names
`similarity`: `1 - np.dot(e1, e2) / (norm(e1) * norm(e2))`. This is the
cosine distance, one minus the cosine similarity. -/
noncomputable def clustering_similarity (e1 e2 : List ℝ) : ℝ :=
  1 - Cosine.dot e1 e2 / (Cosine.l2norm e1 * Cosine.l2norm e2)

/-- Model of the inner loop of the semantic clustering: scan `rest` (the
memories after the cluster seed), skip already-processed members and members
without a truthy embedding, and gather each member whose
`clustering_similarity` with the seed embedding exceeds 0.7, marking it
processed. -/
noncomputable def gather_cluster (emb1 : List ℝ) (rest : List MemoryNode)
    (group : List MemoryNode) (processed : List ℕ) : List MemoryNode × List ℕ :=
  rest.foldl
    (fun st other =>
      if st.2.contains other.id || (other.embedding.getD []).isEmpty then st
      else if (0.7 : ℝ) < clustering_similarity emb1 (other.embedding.getD []) then
        (st.1 ++ [other], other.id :: st.2)
      else st)
    (group, processed)

/-- Model of the outer semantic clustering loop of `_detect_patterns`: each
unprocessed memory with a truthy embedding seeds a cluster; a cluster is kept
when it reaches the repetition threshold; gathered members stay marked
processed either way. -/
noncomputable def semantic_groups (threshold : ℕ) :
    List MemoryNode → List ℕ → List (List MemoryNode)
  | [], _ => []
  | m :: rest, processed =>
    if processed.contains m.id then semantic_groups threshold rest processed
    else if (m.embedding.getD []).isEmpty then semantic_groups threshold rest processed
    else
      let res := gather_cluster (m.embedding.getD []) rest [m] (m.id :: processed)
      if threshold ≤ res.1.length then res.1 :: semantic_groups threshold rest res.2
      else semantic_groups threshold rest res.2

/-- Model of `_detect_patterns`: emotional buckets reaching the threshold
become emotional patterns, then every kept semantic cluster becomes a
semantic pattern, in that order. -/
noncomputable def detect_patterns (memories : List MemoryNode) (threshold : ℕ) :
    List Pattern :=
  ((emotional_groups memories).filter fun g => threshold ≤ g.2.length).map
      (fun g =>
        { type := PatternType.emotional, emotion := some g.1,
          episode_ids := g.2.map MemoryNode.id, contents := none,
          count := g.2.length }) ++
    (semantic_groups threshold memories []).map
      (fun g =>
        { type := PatternType.semantic, emotion := none,
          episode_ids := g.map MemoryNode.id,
          contents := some (g.map MemoryNode.content), count := g.length })

/-- An episodic memory whose embedding is the unit vector `[1, 0]`. -/
def identical_embedding_node (i : ℕ) : MemoryNode :=
  { id := i, user_id := 7, type := "episodic", consolidated := some false,
    timestamp := 999, retention_weight := none, emotional_state := [],
    embedding := some [1, 0], content := "the same thing again" }

/-- Claim C1, failing input: three candidates with identical embeddings
(pairwise cosine similarity exactly 1, far above 0.7) produce no pattern at
threshold 3, because the code compares the cosine distance `1 - cos` (its
`similarity` variable) against 0.7 instead of the cosine similarity, so
identical memories never cluster. -/
theorem identical_memories_make_no_pattern :
    detect_patterns
        [identical_embedding_node 1, identical_embedding_node 2,
          identical_embedding_node 3] 3 = [] ∧
      Cosine.cosine_similarity [1, 0] [1, 0] = 1 := by
  have hdot : Cosine.dot [(1 : ℝ), 0] [1, 0] = 1 := by
    norm_num [Cosine.dot]
  have hnorm : Cosine.l2norm [(1 : ℝ), 0] = 1 := by
    rw [Cosine.l2norm, hdot, Real.sqrt_one]
  have hsim : Cosine.cosine_similarity [(1 : ℝ), 0] [1, 0] = 1 := by
    rw [Cosine.cosine_similarity, hdot, hnorm]
    norm_num
  have hcs : clustering_similarity [(1 : ℝ), 0] [1, 0] = 0 := by
    rw [clustering_similarity, hdot, hnorm]
    norm_num
  refine ⟨?_, hsim⟩
  have hno : ¬ ((0.7 : ℝ) < clustering_similarity [(1 : ℝ), 0] [1, 0]) := by
    rw [hcs]; norm_num
  simp [detect_patterns, emotional_groups, identical_embedding_node,
    semantic_groups, gather_cluster, hno]

end Consolidation

namespace Retrieval

/-- Model of a long-term `(:Memory)` node as `retrieve_similar_memories`
reads it: the filter touches `user_id` and the presence of `embedding`. -/
structure LTMemory where
  id : ℕ
  user_id : ℕ
  embedding : Option (List ℝ)
  content : String

/-- Key order of the result rows: an earlier row's similarity is at least a
later one's. -/
def score_ge (a b : LTMemory × ℝ) : Prop := b.2 ≤ a.2

/-- Stable insertion step for `ORDER BY similarity DESC`. -/
noncomputable def insert_desc (p : LTMemory × ℝ) :
    List (LTMemory × ℝ) → List (LTMemory × ℝ)
  | [] => [p]
  | q :: rest => if q.2 ≤ p.2 then p :: q :: rest else q :: insert_desc p rest

/-- Model of `ORDER BY similarity DESC` as a stable descending sort. -/
noncomputable def sort_desc (l : List (LTMemory × ℝ)) : List (LTMemory × ℝ) :=
  l.foldr insert_desc []

/-- Model of the Cypher query of `retrieve_similar_memories`: score every
embedded node of the user with the cosine similarity
`dot / (norm_a * norm_b)` against the query embedding, keep scores at or
above the threshold, order by score descending, return at most `limit`. -/
noncomputable def retrieve_similar_memories (nodes : List LTMemory) (user_id : ℕ)
    (query_embedding : List ℝ) (similarity_threshold : ℝ) (limit : ℕ) :
    List (LTMemory × ℝ) :=
  let scored :=
    (nodes.filter fun m => m.user_id == user_id && m.embedding.isSome).map
      (fun m => (m, Cosine.cosine_similarity query_embedding (m.embedding.getD [])))
  let kept := scored.filter fun p => decide (similarity_threshold ≤ p.2)
  (sort_desc kept).take limit

theorem mem_insert_desc (p a : LTMemory × ℝ) (l : List (LTMemory × ℝ)) :
    a ∈ insert_desc p l ↔ a = p ∨ a ∈ l := by
  induction l with
  | nil => simp [insert_desc]
  | cons q rest ih =>
    rw [insert_desc]
    split_ifs with h
    · simp
    · rw [List.mem_cons, ih, List.mem_cons]
      tauto

theorem pairwise_insert_desc (p : LTMemory × ℝ) (l : List (LTMemory × ℝ))
    (h : l.Pairwise score_ge) : (insert_desc p l).Pairwise score_ge := by
  induction l with
  | nil => simp [insert_desc, List.Pairwise]
  | cons q rest ih =>
    rw [List.pairwise_cons] at h
    obtain ⟨hq, hrest⟩ := h
    rw [insert_desc]
    split_ifs with hle
    · refine List.Pairwise.cons ?_ (List.Pairwise.cons hq hrest)
      intro b hb
      rcases List.mem_cons.mp hb with rfl | hb
      · exact hle
      · exact le_trans (hq b hb) hle
    · refine List.Pairwise.cons ?_ (ih hrest)
      intro b hb
      rcases (mem_insert_desc p b rest).mp hb with rfl | hb
      · exact le_of_lt (not_le.mp hle)
      · exact hq b hb

theorem sort_desc_pairwise (l : List (LTMemory × ℝ)) :
    (sort_desc l).Pairwise score_ge := by
  induction l with
  | nil => simp [sort_desc, List.Pairwise]
  | cons p rest ih => exact pairwise_insert_desc p _ ih

theorem mem_sort_desc (a : LTMemory × ℝ) (l : List (LTMemory × ℝ)) :
    a ∈ sort_desc l ↔ a ∈ l := by
  induction l with
  | nil => simp [sort_desc]
  | cons p rest ih =>
    show a ∈ insert_desc p (sort_desc rest) ↔ _
    rw [mem_insert_desc, ih, List.mem_cons]

/-- Claim C5, amended: no returned item scores below the threshold, the
scores are returned in non-increasing order (strictness fails on ties), at
most `limit` items are returned, and when every embedded node of the store
scores below the threshold the result is empty. -/
theorem retrieve_similar_memories_spec (nodes : List LTMemory) (user_id : ℕ)
    (query_embedding : List ℝ) (t : ℝ) (limit : ℕ) :
    (∀ p ∈ retrieve_similar_memories nodes user_id query_embedding t limit, t ≤ p.2) ∧
    ((retrieve_similar_memories nodes user_id query_embedding t limit).map
        Prod.snd).Chain' (fun a b => b ≤ a) ∧
    (retrieve_similar_memories nodes user_id query_embedding t limit).length ≤ limit ∧
    ((∀ m ∈ nodes, ∀ e, m.embedding = some e →
        Cosine.cosine_similarity query_embedding e < t) →
      retrieve_similar_memories nodes user_id query_embedding t limit = []) := by
  refine ⟨?_, ?_, ?_, ?_⟩
  · intro p hp
    have hsort := (List.take_subset limit _) hp
    have hkept := (mem_sort_desc p _).mp hsort
    have := List.of_mem_filter hkept
    exact of_decide_eq_true this
  · have hpw : (retrieve_similar_memories nodes user_id query_embedding t limit).Pairwise
        score_ge :=
      (sort_desc_pairwise _).sublist (List.take_sublist _ _)
    exact List.Pairwise.chain' (List.Pairwise.map Prod.snd (fun a b h => h) hpw)
  · exact le_trans (List.length_take_le _ _) (le_refl _)
  · intro hall
    have hkept : (((nodes.filter fun m => m.user_id == user_id && m.embedding.isSome).map
        (fun m => (m, Cosine.cosine_similarity query_embedding (m.embedding.getD [])))).filter
          fun p => decide (t ≤ p.2)) = [] := by
      rw [List.filter_eq_nil_iff]
      rintro p hp
      rcases List.mem_map.mp hp with ⟨m, hm, rfl⟩
      have hmem : m ∈ nodes := List.mem_of_mem_filter hm
      have hsome : m.embedding.isSome := by
        have := List.of_mem_filter hm
        exact (Bool.and_eq_true _ _ |>.mp this).2
      rcases Option.isSome_iff_exists.mp hsome with ⟨e, he⟩
      have hlt := hall m hmem e he
      simp only [he, Option.getD_some]
      simpa using not_le.mpr hlt
    rw [retrieve_similar_memories]
    simp only [hkept]
    simp [sort_desc]

/-- A long-term node whose embedding is the unit vector `[1, 0]`. -/
def dup_node (i : ℕ) : LTMemory :=
  { id := i, user_id := 7, embedding := some [1, 0], content := "twice stored" }

/-- Claim C5, counterexample: two stored nodes with identical embeddings both
score similarity 1 against the query `[1, 0]`, so the returned score list is
`[1, 1]` — non-increasing but not strictly descending as the claim states. -/
theorem similarity_search_returns_tied_scores :
    ((retrieve_similar_memories [dup_node 1, dup_node 2] 7 [1, 0] (1/2) 10).map
        Prod.snd = [1, 1]) ∧
      ¬ ((retrieve_similar_memories [dup_node 1, dup_node 2] 7 [1, 0] (1/2) 10).map
          Prod.snd).Chain' (fun a b => b < a) := by
  have hdot : Cosine.dot [(1 : ℝ), 0] [1, 0] = 1 := by
    norm_num [Cosine.dot]
  have hnorm : Cosine.l2norm [(1 : ℝ), 0] = 1 := by
    rw [Cosine.l2norm, hdot, Real.sqrt_one]
  have hsim : Cosine.cosine_similarity [(1 : ℝ), 0] [1, 0] = 1 := by
    rw [Cosine.cosine_similarity, hdot, hnorm]
    norm_num
  have heval : (retrieve_similar_memories [dup_node 1, dup_node 2] 7 [1, 0] (1/2) 10).map
      Prod.snd = [1, 1] := by
    rw [retrieve_similar_memories]
    norm_num [dup_node, hsim, sort_desc, insert_desc]
  refine ⟨heval, ?_⟩
  rw [heval]
  simp

/-- Model of `MemoryRetrievalResult`: messages (as ids), their scores, and
the count. The dataclass has no error flag field. -/
structure MemoryRetrievalResult where
  messages : List ℕ
  similarity_scores : List ℚ
  total_retrieved : ℕ
deriving DecidableEq

/-- Model of the control flow of
`LongTermMemoryManager.retrieve_similar_memories`: when the rate limiter
denies the call, an empty successful result is returned; otherwise the
Neo4j query either yields rows (a successful result) or raises, and the
exception escapes this method. The store outcome is the `Except` argument. -/
def retrieve_similar_memories_call (rate_allowed : Bool)
    (store_rows : Except String (List (ℕ × ℚ))) :
    Except String MemoryRetrievalResult :=
  if rate_allowed = false then Except.ok ⟨[], [], 0⟩
  else
    match store_rows with
    | Except.error e => Except.error e
    | Except.ok rows => Except.ok ⟨rows.map Prod.fst, rows.map Prod.snd, rows.length⟩

/-- Model of `MemoryManager.retrieve_memories`: it calls the long-term
manager inside `try`, and its `except` clause logs the error and re-raises
(`raise`), so a store failure propagates to the caller. -/
def retrieve_memories (rate_allowed : Bool)
    (store_rows : Except String (List (ℕ × ℚ))) :
    Except String MemoryRetrievalResult :=
  match retrieve_similar_memories_call rate_allowed store_rows with
  | Except.error e => Except.error e
  | Except.ok r => Except.ok r

/-- Claim C8, counterexample: a store failure during similarity retrieval is
re-raised by `retrieve_memories` and reaches the caller as a raised error,
not as an empty result with an error flag. -/
theorem store_failure_propagates :
    retrieve_memories true (Except.error "neo4j session failed")
        = Except.error "neo4j session failed" ∧
      ∀ r : MemoryRetrievalResult,
        retrieve_memories true (Except.error "neo4j session failed") ≠ Except.ok r := by
  exact ⟨rfl, fun r h => Except.noConfusion h⟩

/-- Claim C8, amended: quota exhaustion during similarity retrieval degrades
to an empty successful result (there is no error flag field to set), while
any store failure on the retrieval path is logged and re-raised out of
`retrieve_memories`. -/
theorem retrieve_memories_error_paths (store_rows : Except String (List (ℕ × ℚ)))
    (e : String) :
    retrieve_memories false store_rows = Except.ok ⟨[], [], 0⟩ ∧
    retrieve_memories true (Except.error e) = Except.error e := by
  exact ⟨rfl, rfl⟩

end Retrieval

namespace Spreading

/-- `self.decay_factor` of `SpreadingActivation.__init__`. -/
noncomputable def decay_factor : ℝ := 0.6

/-- `self.activation_threshold`. -/
noncomputable def activation_threshold : ℝ := 0.3

/-- `self.max_depth`. -/
def max_depth : ℕ := 5

/-- `self.emotional_weight_factor`. -/
noncomputable def emotional_weight_factor : ℝ := 0.5

/-- `self.temporal_decay_hours`. -/
noncomputable def temporal_decay_hours : ℝ := 168

/-- `self.max_activated_nodes`. -/
def max_activated_nodes : ℕ := 500

/-- An emotion-label score map (`emotional_state` node property); a null or
missing map is modelled by the empty list. -/
abbrev EmoMap := List (String × ℝ)

/-- Python `set(memory_emotions) & set(current_emotions)`, in the first map's
key order (iteration order of a Python set is unspecified, but the cosine
similarity below is invariant under a permutation of the common keys). -/
def common_emotions (memory_emotions current_emotions : EmoMap) : List String :=
  (memory_emotions.map Prod.fst).filter
    (fun k => (current_emotions.map Prod.fst).contains k)

/-- Python `emotions.get(e, 0)`. -/
def emotions_get (m : EmoMap) (k : String) : ℝ := (List.lookup k m).getD 0

/-- Model of `_calculate_emotional_weight`: 0 when either map is falsy or
the key sets do not overlap or either projected vector is all zero, else the
cosine similarity of the two score vectors over the common keys, clamped
below at 0. -/
noncomputable def calculate_emotional_weight
    (memory_emotions current_emotions : EmoMap) : ℝ :=
  if memory_emotions.isEmpty || current_emotions.isEmpty then 0
  else if (common_emotions memory_emotions current_emotions).isEmpty then 0
  else if (∀ x ∈ (common_emotions memory_emotions current_emotions).map
        (emotions_get memory_emotions), x = 0) ∨
      (∀ x ∈ (common_emotions memory_emotions current_emotions).map
        (emotions_get current_emotions), x = 0) then 0
  else max 0 (Cosine.cosine_similarity
    ((common_emotions memory_emotions current_emotions).map
      (emotions_get memory_emotions))
    ((common_emotions memory_emotions current_emotions).map
      (emotions_get current_emotions)))

/-- Model of `_calculate_temporal_weight`: 0.5 for a missing (or
unparseable) timestamp, else `max(0.1, exp(-hours_elapsed / 168))`.
Timestamps and `now` are measured in hours. -/
noncomputable def calculate_temporal_weight (now : ℝ) (timestamp : Option ℝ) : ℝ :=
  match timestamp with
  | none => 0.5
  | some ts => max 0.1 (Real.exp (-(1 / temporal_decay_hours) * (now - ts)))

/-- The three traversed relationship kinds. -/
inductive EdgeType
  | temporally_related
  | semantically_similar
  | emotionally_connected
deriving DecidableEq

/-- A row of the `_get_neighbors` Cypher query. -/
structure NeighborRow where
  neighbor_id : ℕ
  emotional_state : EmoMap
  timestamp : Option ℝ
  edge_weight : ℝ
  relationship_type : EdgeType

/-- A processed neighbor as `_get_neighbors` returns it. -/
structure Neighbor where
  neighbor_id : ℕ
  edge_weight : ℝ
  emotional_state : EmoMap
  timestamp : Option ℝ

/-- The edge-type boost of `_get_neighbors`: EMOTIONALLY_CONNECTED ×1.3,
SEMANTICALLY_SIMILAR ×1.1, TEMPORALLY_RELATED unchanged. -/
noncomputable def boost_weight (w : ℝ) : EdgeType → ℝ
  | EdgeType.emotionally_connected => w * 1.3
  | EdgeType.semantically_similar => w * 1.1
  | EdgeType.temporally_related => w

/-- The post-processing loop of `_get_neighbors`: boost by relationship type
and cap the weight at 1.0. -/
noncomputable def process_neighbors (rows : List NeighborRow) : List Neighbor :=
  rows.map fun n =>
    { neighbor_id := n.neighbor_id,
      edge_weight := min (boost_weight n.edge_weight n.relationship_type) 1,
      emotional_state := n.emotional_state,
      timestamp := n.timestamp }

/-- The user's memory graph, as the neighbor query exposes it: the rows the
query returns for each node id. -/
structure Graph where
  rows : ℕ → List NeighborRow

/-- Model of `_get_neighbors`. -/
noncomputable def get_neighbors (g : Graph) (node_id : ℕ) : List Neighbor :=
  process_neighbors (g.rows node_id)

/-- One record of the `activated` dict. -/
structure ActivationEntry where
  activation : ℝ
  depth : ℕ
  path : List ℕ

/-- The `activated` Python dict, as an insertion-ordered association list. -/
abbrev ActivationMap := List (ℕ × ActivationEntry)

/-- Python `activated.get(node_id)`. -/
def lookup_entry (m : ActivationMap) (k : ℕ) : Option ActivationEntry :=
  List.lookup k m

/-- Python `activated[k] = v`: replace in place, or append a new key. -/
def dict_set : ActivationMap → ℕ → ActivationEntry → ActivationMap
  | [], k, v => [(k, v)]
  | (k2, v2) :: rest, k, v =>
    if k2 = k then (k, v) :: rest else (k2, v2) :: dict_set rest k v

/-- A heap entry `(-activation, depth, node_id)` as the code pushes it. -/
abbrev QueueEntry := ℝ × ℕ × ℕ

/-- Python tuple `<` on heap entries. -/
def queue_lt (a b : QueueEntry) : Prop :=
  a.1 < b.1 ∨ (a.1 = b.1 ∧ (a.2.1 < b.2.1 ∨ (a.2.1 = b.2.1 ∧ a.2.2 < b.2.2)))

noncomputable instance (a b : QueueEntry) : Decidable (queue_lt a b) := by
  unfold queue_lt
  infer_instance

/-- Model of `heapq.heappop`: remove the least entry under the tuple order
(the first such occurrence; equal tuples are indistinguishable). -/
noncomputable def pop_min : List QueueEntry → Option (QueueEntry × List QueueEntry)
  | [] => none
  | e :: rest =>
    match pop_min rest with
    | none => some (e, rest)
    | some (m, rest2) =>
      if queue_lt m e then some (m, e :: rest2) else some (e, rest)

/-- The propagated activation computed for one neighbor inside the traversal
loop: `activation * decay * edge_weight`, then `* (1 + emotional_weight *
emotional_weight_factor)`, then `* temporal_weight`. -/
noncomputable def propagate (activation : ℝ) (n : Neighbor)
    (emotional_state : EmoMap) (now : ℝ) : ℝ :=
  activation * decay_factor * n.edge_weight *
    (1 + calculate_emotional_weight n.emotional_state emotional_state *
      emotional_weight_factor) *
    calculate_temporal_weight now n.timestamp

/-- Python `neighbor_id not in activated or propagated > activated[...]`. -/
def should_record (m : ActivationMap) (k : ℕ) (p : ℝ) : Prop :=
  match lookup_entry m k with
  | none => True
  | some e => e.activation < p

noncomputable instance (m : ActivationMap) (k : ℕ) (p : ℝ) :
    Decidable (should_record m k p) := by
  unfold should_record
  cases lookup_entry m k with
  | none => exact isTrue trivial
  | some e => exact inferInstanceAs (Decidable (e.activation < p))

/-- The body of the `for neighbor ... in neighbors` loop: skip visited
neighbors, drop propagations below the activation threshold, and otherwise
record the neighbor at `depth + 1` (with the popped node's current path
extended) and push it, whenever it is new or improves on its recorded
activation. -/
noncomputable def visit_neighbor (emo : EmoMap) (now : ℝ) (activation : ℝ)
    (depth : ℕ) (current_id : ℕ) (visited : List ℕ)
    (st : ActivationMap × List QueueEntry) (n : Neighbor) :
    ActivationMap × List QueueEntry :=
  if visited.contains n.neighbor_id then st
  else if propagate activation n emo now < activation_threshold then st
  else if should_record st.1 n.neighbor_id (propagate activation n emo now) then
    (dict_set st.1 n.neighbor_id
        ⟨propagate activation n emo now, depth + 1,
          ((lookup_entry st.1 current_id).map ActivationEntry.path).getD []
            ++ [n.neighbor_id]⟩,
      (-propagate activation n emo now, depth + 1, n.neighbor_id) :: st.2)
  else st

/-- The expansion of one popped node over all its neighbors. -/
noncomputable def expand_node (g : Graph) (emo : EmoMap) (now : ℝ)
    (activation : ℝ) (depth : ℕ) (current_id : ℕ) (visited : List ℕ)
    (st : ActivationMap × List QueueEntry) : ActivationMap × List QueueEntry :=
  (get_neighbors g current_id).foldl
    (visit_neighbor emo now activation depth current_id visited) st

/-- Model of the `while queue and len(activated) < self.max_activated_nodes`
loop of `_spread_activation`, with an explicit step budget (`fuel`): stop on
an empty queue or once the activated count has reached the cap (the cap is
checked only between iterations); a popped node that is visited or whose
recorded depth has reached `max_depth` is not expanded. -/
noncomputable def spread_loop (g : Graph) (emo : EmoMap) (now : ℝ) :
    ℕ → List QueueEntry → List ℕ → ActivationMap → ActivationMap
  | 0, _, _, activated => activated
  | fuel + 1, queue, visited, activated =>
    if max_activated_nodes ≤ activated.length then activated
    else
      match pop_min queue with
      | none => activated
      | some ((neg_activation, depth, current_id), rest) =>
        if current_id ∈ visited ∨ max_depth ≤ depth then
          spread_loop g emo now fuel rest visited activated
        else
          let st := expand_node g emo now (-neg_activation) depth current_id
            (current_id :: visited) (activated, rest)
          spread_loop g emo now fuel st.2 (current_id :: visited) st.1

/-- The seeding loop of `_spread_activation`: each seed is pushed with its
similarity as activation and recorded at depth 0 with path `[node_id]`. -/
noncomputable def init_state (seeds : List (ℕ × ℝ)) :
    ActivationMap × List QueueEntry :=
  seeds.foldl
    (fun st s => (dict_set st.1 s.1 ⟨s.2, 0, [s.1]⟩, (-s.2, 0, s.1) :: st.2))
    ([], [])

/-- Model of `_spread_activation`. -/
noncomputable def spread_activation (g : Graph) (seeds : List (ℕ × ℝ))
    (emo : EmoMap) (now : ℝ) (fuel : ℕ) : ActivationMap :=
  spread_loop g emo now fuel (init_state seeds).2 [] (init_state seeds).1

/-- Stable insertion step for
`sorted(activated.items(), key=activation, reverse=True)`. -/
noncomputable def insert_by_activation (p : ℕ × ActivationEntry) :
    List (ℕ × ActivationEntry) → List (ℕ × ActivationEntry)
  | [] => [p]
  | q :: rest =>
    if q.2.activation ≤ p.2.activation then p :: q :: rest
    else q :: insert_by_activation p rest

/-- Model of the sort in `activate_memories` (Python `sorted` is stable). -/
noncomputable def sort_by_activation (l : ActivationMap) :
    List (ℕ × ActivationEntry) :=
  l.foldr insert_by_activation []

/-- Model of `activate_memories` after seeding: sort the activated nodes by
activation descending and keep the top `max_results`. -/
noncomputable def activate_memories (g : Graph) (seeds : List (ℕ × ℝ))
    (emo : EmoMap) (now : ℝ) (fuel : ℕ) (max_results : ℕ) :
    List (ℕ × ActivationEntry) :=
  (sort_by_activation (spread_activation g seeds emo now fuel)).take max_results

end Spreading

namespace Spreading

theorem lookup_mem {α β : Type} [BEq α] [LawfulBEq α] (k : α) (v : β) :
    ∀ l : List (α × β), List.lookup k l = some v → (k, v) ∈ l := by
  intro l
  induction l with
  | nil => intro h; simp [List.lookup] at h
  | cons p rest ih =>
    rcases p with ⟨k2, v2⟩
    intro h
    rw [List.lookup] at h
    rcases hbeq : (k == k2) with _ | _
    · rw [hbeq] at h
      exact List.mem_cons_of_mem _ (ih h)
    · rw [hbeq] at h
      cases h
      exact (beq_iff_eq.mp hbeq) ▸ List.mem_cons_self _ _

theorem dot_eq_zero_left (u v : List ℝ) (h : ∀ x ∈ u, x = 0) :
    Cosine.dot u v = 0 := by
  induction u generalizing v with
  | nil => simp [Cosine.dot]
  | cons a u ih =>
    cases v with
    | nil => simp [Cosine.dot]
    | cons b v =>
      rw [Cosine.dot_cons, h a (by simp), zero_mul, zero_add]
      exact ih v (fun x hx => h x (List.mem_cons_of_mem a hx))

theorem dot_eq_zero_right (u v : List ℝ) (h : ∀ y ∈ v, y = 0) :
    Cosine.dot u v = 0 := by
  induction u generalizing v with
  | nil => simp [Cosine.dot]
  | cons a u ih =>
    cases v with
    | nil => simp [Cosine.dot]
    | cons b v =>
      rw [Cosine.dot_cons, h b (by simp), mul_zero, zero_add]
      exact ih v (fun y hy => h y (List.mem_cons_of_mem b hy))

theorem emotions_get_nonneg (m : EmoMap) (h : ∀ p ∈ m, 0 ≤ p.2) (k : String) :
    0 ≤ emotions_get m k := by
  rw [emotions_get]
  rcases hl : List.lookup k m with _ | v
  · simp
  · simpa using h (k, v) (lookup_mem k v m hl)

/-- The claim's emotional multiplier:
`1 + emotionalWeightFactor * cosineSim` over the overlapping affect labels,
the similarity contributing 0 when either side is empty or there is no label
overlap. -/
noncomputable def emotional_multiplier_spec (memE curE : EmoMap) : ℝ :=
  1 + emotional_weight_factor *
    (if memE.isEmpty || curE.isEmpty || (common_emotions memE curE).isEmpty then 0
     else Cosine.cosine_similarity
       ((common_emotions memE curE).map (emotions_get memE))
       ((common_emotions memE curE).map (emotions_get curE)))

/-- The claim's temporal multiplier:
`max(0.1, exp(-hoursSinceTimestamp / 168))`, 0.5 for a missing timestamp. -/
noncomputable def temporal_multiplier_spec (now : ℝ) (timestamp : Option ℝ) : ℝ :=
  match timestamp with
  | none => 0.5
  | some ts => max 0.1 (Real.exp (-((now - ts) / temporal_decay_hours)))

theorem calculate_temporal_weight_eq (now : ℝ) (timestamp : Option ℝ) :
    calculate_temporal_weight now timestamp = temporal_multiplier_spec now timestamp := by
  cases timestamp with
  | none => rfl
  | some ts =>
    show max 0.1 (Real.exp (-(1 / temporal_decay_hours) * (now - ts)))
        = max 0.1 (Real.exp (-((now - ts) / temporal_decay_hours)))
    rw [show -(1 / temporal_decay_hours) * (now - ts)
        = -((now - ts) / temporal_decay_hours) by ring]

theorem calculate_emotional_weight_eq (memE curE : EmoMap)
    (hmem : ∀ p ∈ memE, 0 ≤ p.2) (hcur : ∀ p ∈ curE, 0 ≤ p.2) :
    calculate_emotional_weight memE curE =
      (if memE.isEmpty || curE.isEmpty || (common_emotions memE curE).isEmpty then 0
       else Cosine.cosine_similarity
         ((common_emotions memE curE).map (emotions_get memE))
         ((common_emotions memE curE).map (emotions_get curE))) := by
  rw [calculate_emotional_weight]
  rcases hm : memE.isEmpty with _ | _
  · rcases hc : curE.isEmpty with _ | _
    · rcases hcm : (common_emotions memE curE).isEmpty with _ | _
      · simp only [hm, hc, hcm, Bool.or_self, Bool.false_or, Bool.or_false,
          Bool.false_eq_true, if_false]
        have hmvn : ∀ x ∈ (common_emotions memE curE).map (emotions_get memE), 0 ≤ x := by
          intro x hx
          rcases List.mem_map.mp hx with ⟨k, _, rfl⟩
          exact emotions_get_nonneg memE hmem k
        have hcvn : ∀ y ∈ (common_emotions memE curE).map (emotions_get curE), 0 ≤ y := by
          intro y hy
          rcases List.mem_map.mp hy with ⟨k, _, rfl⟩
          exact emotions_get_nonneg curE hcur k
        by_cases h3 : (∀ x ∈ (common_emotions memE curE).map (emotions_get memE), x = 0)
            ∨ (∀ x ∈ (common_emotions memE curE).map (emotions_get curE), x = 0)
        · rw [if_pos h3, Cosine.cosine_similarity]
          rcases h3 with h3 | h3
          · rw [dot_eq_zero_left _ _ h3, zero_div]
          · rw [dot_eq_zero_right _ _ h3, zero_div]
        · rw [if_neg h3]
          exact max_eq_right (Cosine.cosine_similarity_nonneg _ _ hmvn hcvn)
      · simp [hm, hc, hcm]
    · simp [hm, hc]
  · simp [hm]

/-- Claim C2: for every neighbor considered from a popped node, the
propagated activation is exactly
`parentActivation * 0.6 * edgeWeight * emotionalMultiplier *
temporalMultiplier` with the multipliers as the claim defines them (under
the data-model precondition that affect scores are nonnegative), and a
neighbor whose propagated activation falls below the activation threshold
0.3 leaves the traversal state untouched (it is dropped). -/
theorem propagated_activation_formula (activation : ℝ) (n : Neighbor)
    (emo : EmoMap) (now : ℝ)
    (hmem : ∀ p ∈ n.emotional_state, 0 ≤ p.2) (hcur : ∀ p ∈ emo, 0 ≤ p.2) :
    propagate activation n emo now =
      activation * decay_factor * n.edge_weight *
        emotional_multiplier_spec n.emotional_state emo *
        temporal_multiplier_spec now n.timestamp ∧
    decay_factor = 0.6 ∧ activation_threshold = 0.3 ∧
    (∀ (st : ActivationMap × List QueueEntry) (depth current_id : ℕ)
        (visited : List ℕ),
      propagate activation n emo now < activation_threshold →
        visit_neighbor emo now activation depth current_id visited st n = st) := by
  refine ⟨?_, rfl, rfl, ?_⟩
  · rw [propagate, calculate_emotional_weight_eq n.emotional_state emo hmem hcur,
      calculate_temporal_weight_eq, emotional_multiplier_spec]
    ring
  · intro st depth current_id visited hlt
    rw [visit_neighbor]
    split_ifs with h1
    · rfl
    · rfl

/-- Witness for claim C2's theorem: a neighbor sharing the label `joy` with
the current emotional state, at edge weight 1 and a missing timestamp. -/
theorem propagated_activation_formula_witness :
    propagate 0.9
        { neighbor_id := 2, edge_weight := 1,
          emotional_state := [("joy", 1)], timestamp := none }
        [("joy", (1 : ℝ)/2)] 0 =
      0.9 * decay_factor * (1 : ℝ) *
        emotional_multiplier_spec [("joy", 1)] [("joy", (1 : ℝ)/2)] *
        temporal_multiplier_spec 0 none :=
  (propagated_activation_formula 0.9
      { neighbor_id := 2, edge_weight := 1,
        emotional_state := [("joy", 1)], timestamp := none }
      [("joy", (1 : ℝ)/2)] 0
      (by intro p hp; rcases List.mem_singleton.mp hp with rfl; norm_num)
      (by intro p hp; rcases List.mem_singleton.mp hp with rfl; norm_num)).1

end Spreading

namespace Spreading

theorem dict_set_mem (m : ActivationMap) (k : ℕ) (v : ActivationEntry) :
    ∀ p ∈ dict_set m k v, p = (k, v) ∨ p ∈ m := by
  induction m with
  | nil =>
    intro p hp
    rw [dict_set] at hp
    exact Or.inl (List.mem_singleton.mp hp)
  | cons q rest ih =>
    rcases q with ⟨k2, v2⟩
    intro p hp
    rw [dict_set] at hp
    split_ifs at hp with hk
    · rcases List.mem_cons.mp hp with rfl | hp
      · exact Or.inl rfl
      · exact Or.inr (List.mem_cons_of_mem _ hp)
    · rcases List.mem_cons.mp hp with rfl | hp
      · exact Or.inr (List.mem_cons_self _ _)
      · rcases ih p hp with h | h
        · exact Or.inl h
        · exact Or.inr (List.mem_cons_of_mem _ h)

theorem dict_set_length (m : ActivationMap) (k : ℕ) (v : ActivationEntry) :
    (dict_set m k v).length ≤ m.length + 1 := by
  induction m with
  | nil => simp [dict_set]
  | cons q rest ih =>
    rcases q with ⟨k2, v2⟩
    rw [dict_set]
    split_ifs with hk
    · simp
    · simpa using Nat.succ_le_succ ih

theorem visit_neighbor_entries (emo : EmoMap) (now activation : ℝ)
    (depth current_id : ℕ) (visited : List ℕ)
    (st : ActivationMap × List QueueEntry) (n : Neighbor)
    (P : ℕ × ActivationEntry → Prop)
    (hP : ∀ p ∈ st.1, P p)
    (hnew : ∀ path : List ℕ,
      P (n.neighbor_id, ⟨propagate activation n emo now, depth + 1, path⟩)) :
    ∀ p ∈ (visit_neighbor emo now activation depth current_id visited st n).1, P p := by
  rw [visit_neighbor]
  split_ifs with h1 h2 h3
  · exact hP
  · exact hP
  · intro p hp
    rcases dict_set_mem _ _ _ p hp with rfl | hp
    · exact hnew _
    · exact hP p hp
  · exact hP

theorem visit_neighbor_length (emo : EmoMap) (now activation : ℝ)
    (depth current_id : ℕ) (visited : List ℕ)
    (st : ActivationMap × List QueueEntry) (n : Neighbor) :
    (visit_neighbor emo now activation depth current_id visited st n).1.length
      ≤ st.1.length + 1 := by
  rw [visit_neighbor]
  split_ifs with h1 h2 h3
  · exact Nat.le_succ _
  · exact Nat.le_succ _
  · exact dict_set_length _ _ _
  · exact Nat.le_succ _

theorem foldl_visit_entries (emo : EmoMap) (now activation : ℝ)
    (depth current_id : ℕ) (visited : List ℕ)
    (P : ℕ × ActivationEntry → Prop) :
    ∀ (ns : List Neighbor) (st : ActivationMap × List QueueEntry),
      (∀ n ∈ ns, ∀ path : List ℕ,
        P (n.neighbor_id, ⟨propagate activation n emo now, depth + 1, path⟩)) →
      (∀ p ∈ st.1, P p) →
      ∀ p ∈ (ns.foldl (visit_neighbor emo now activation depth current_id visited) st).1,
        P p := by
  intro ns
  induction ns with
  | nil => intro st _ hst; exact hst
  | cons n ns ih =>
    intro st hnew hst
    rw [List.foldl_cons]
    exact ih _ (fun n2 hn2 => hnew n2 (List.mem_cons_of_mem n hn2))
      (visit_neighbor_entries emo now activation depth current_id visited st n P hst
        (hnew n (List.mem_cons_self n ns)))

theorem foldl_visit_length (emo : EmoMap) (now activation : ℝ)
    (depth current_id : ℕ) (visited : List ℕ) :
    ∀ (ns : List Neighbor) (st : ActivationMap × List QueueEntry),
      (ns.foldl (visit_neighbor emo now activation depth current_id visited) st).1.length
        ≤ st.1.length + ns.length := by
  intro ns
  induction ns with
  | nil => intro st; simp
  | cons n ns ih =>
    intro st
    rw [List.foldl_cons]
    calc (ns.foldl (visit_neighbor emo now activation depth current_id visited)
          (visit_neighbor emo now activation depth current_id visited st n)).1.length
        ≤ (visit_neighbor emo now activation depth current_id visited st n).1.length
            + ns.length := ih _
      _ ≤ st.1.length + 1 + ns.length :=
          Nat.add_le_add_right (visit_neighbor_length _ _ _ _ _ _ _ _) _
      _ = st.1.length + (n :: ns).length := by simp [Nat.add_assoc, Nat.add_comm 1]

theorem spread_loop_entries (g : Graph) (emo : EmoMap) (now : ℝ)
    (P : ℕ × ActivationEntry → Prop)
    (hnew : ∀ (activation : ℝ) (depth current_id : ℕ), depth < max_depth →
      ∀ n ∈ get_neighbors g current_id, ∀ path : List ℕ,
        P (n.neighbor_id, ⟨propagate activation n emo now, depth + 1, path⟩)) :
    ∀ (fuel : ℕ) (queue : List QueueEntry) (visited : List ℕ)
      (activated : ActivationMap),
      (∀ p ∈ activated, P p) →
      ∀ p ∈ spread_loop g emo now fuel queue visited activated, P p := by
  intro fuel
  induction fuel with
  | zero => intro queue visited activated h; exact h
  | succ fuel ih =>
    intro queue visited activated h
    rw [spread_loop]
    split_ifs with hmax
    · exact h
    · rcases hpop : pop_min queue with _ | ⟨⟨neg_activation, depth, current_id⟩, rest⟩
      · simp only [hpop]
        exact h
      · simp only [hpop]
        split_ifs with hguard
        · exact ih rest visited activated h
        · have hdepth : depth < max_depth := by
            rcases not_or.mp hguard with ⟨-, hd⟩
            omega
          exact ih _ _ _
            (foldl_visit_entries emo now (-neg_activation) depth current_id
              (current_id :: visited) P (get_neighbors g current_id)
              (activated, rest)
              (fun n hn => hnew (-neg_activation) depth current_id hdepth n hn) h)

theorem init_fold_entries (P : ℕ × ActivationEntry → Prop) :
    ∀ (seeds : List (ℕ × ℝ)) (st : ActivationMap × List QueueEntry),
      (∀ s ∈ seeds, P (s.1, ⟨s.2, 0, [s.1]⟩)) → (∀ p ∈ st.1, P p) →
      ∀ p ∈ (seeds.foldl
          (fun st s => (dict_set st.1 s.1 ⟨s.2, 0, [s.1]⟩, (-s.2, 0, s.1) :: st.2))
          st).1, P p := by
  intro seeds
  induction seeds with
  | nil => intro st _ hst; exact hst
  | cons s seeds ih =>
    intro st hs hst
    rw [List.foldl_cons]
    refine ih _ (fun s2 hs2 => hs s2 (List.mem_cons_of_mem s hs2)) ?_
    intro p hp
    rcases dict_set_mem _ _ _ p hp with rfl | hp
    · exact hs s (List.mem_cons_self s seeds)
    · exact hst p hp

theorem init_state_entries (seeds : List (ℕ × ℝ)) :
    ∀ p ∈ (init_state seeds).1, p.2.depth = 0 ∧ p.1 ∈ seeds.map Prod.fst := by
  refine init_fold_entries _ seeds ([], []) ?_ ?_
  · intro s hs
    exact ⟨rfl, List.mem_map.mpr ⟨s, hs, rfl⟩⟩
  · intro p hp
    simp at hp

theorem mem_insert_by_activation (p a : ℕ × ActivationEntry) :
    ∀ l : List (ℕ × ActivationEntry),
      (a ∈ insert_by_activation p l ↔ a = p ∨ a ∈ l) := by
  intro l
  induction l with
  | nil => simp [insert_by_activation]
  | cons q rest ih =>
    rw [insert_by_activation]
    split_ifs with h
    · simp
    · rw [List.mem_cons, ih, List.mem_cons]
      tauto

theorem mem_sort_by_activation (a : ℕ × ActivationEntry) :
    ∀ l : ActivationMap, (a ∈ sort_by_activation l ↔ a ∈ l) := by
  intro l
  induction l with
  | nil => simp [sort_by_activation]
  | cons p rest ih =>
    show a ∈ insert_by_activation p (sort_by_activation rest) ↔ _
    rw [mem_insert_by_activation, ih, List.mem_cons]

/-- Claim C10: every seed is initially recorded at depth 0, every entry of
the final activated map has depth at most `max_depth = 5` (a popped node at
depth 5 is never expanded, and expansions record neighbors at the popped
depth plus one, which the guard keeps at 5 or below), and hence no activated
node is ever reported with depth greater than 5. -/
theorem activated_depth_in_range (g : Graph) (seeds : List (ℕ × ℝ))
    (emo : EmoMap) (now : ℝ) (fuel max_results : ℕ) :
    (∀ p ∈ (init_state seeds).1, p.2.depth = 0) ∧
    (∀ p ∈ spread_activation g seeds emo now fuel, p.2.depth ≤ max_depth) ∧
    (∀ p ∈ activate_memories g seeds emo now fuel max_results,
      p.2.depth ≤ max_depth) := by
  have hinit0 : ∀ p ∈ (init_state seeds).1, p.2.depth = 0 :=
    fun p hp => (init_state_entries seeds p hp).1
  have hspread : ∀ p ∈ spread_activation g seeds emo now fuel,
      p.2.depth ≤ max_depth := by
    rw [spread_activation]
    refine spread_loop_entries g emo now (fun p => p.2.depth ≤ max_depth)
      ?_ fuel _ [] _ ?_
    · intro activation depth current_id hdepth n hn path
      exact hdepth
    · intro p hp
      rw [hinit0 p hp]
      exact Nat.zero_le _
  refine ⟨hinit0, hspread, ?_⟩
  intro p hp
  have hmem : p ∈ sort_by_activation (spread_activation g seeds emo now fuel) :=
    List.take_subset max_results _ hp
  exact hspread p ((mem_sort_by_activation p _).mp hmem)

end Spreading

namespace Spreading

theorem calculate_emotional_weight_nonneg (memE curE : EmoMap) :
    0 ≤ calculate_emotional_weight memE curE := by
  rw [calculate_emotional_weight]
  split_ifs with h1 h2 h3
  · exact le_refl 0
  · exact le_refl 0
  · exact le_refl 0
  · exact le_max_left 0 _

theorem calculate_emotional_weight_le_one (memE curE : EmoMap) :
    calculate_emotional_weight memE curE ≤ 1 := by
  rw [calculate_emotional_weight]
  split_ifs with h1 h2 h3
  · exact zero_le_one
  · exact zero_le_one
  · exact zero_le_one
  · exact max_le zero_le_one (Cosine.cosine_similarity_le_one _ _)

theorem calculate_temporal_weight_bounds (now : ℝ) (timestamp : Option ℝ)
    (h : ∀ ts, timestamp = some ts → ts ≤ now) :
    0.1 ≤ calculate_temporal_weight now timestamp ∧
      calculate_temporal_weight now timestamp ≤ 1 := by
  cases timestamp with
  | none =>
    constructor <;> norm_num [calculate_temporal_weight]
  | some ts =>
    constructor
    · exact le_max_left _ _
    · refine max_le (by norm_num) ?_
      rw [Real.exp_le_one_iff]
      have hts : ts ≤ now := h ts rfl
      have h168 : (0 : ℝ) < temporal_decay_hours := by
        rw [temporal_decay_hours]; norm_num
      have : 0 ≤ (1 / temporal_decay_hours) * (now - ts) :=
        mul_nonneg (le_of_lt (by positivity)) (by linarith)
      linarith

theorem spread_loop_length (g : Graph) (emo : EmoMap) (now : ℝ) (D : ℕ)
    (hdeg : ∀ id, (get_neighbors g id).length ≤ D) :
    ∀ (fuel : ℕ) (queue : List QueueEntry) (visited : List ℕ)
      (activated : ActivationMap) (B : ℕ),
      max_activated_nodes - 1 + D ≤ B → activated.length ≤ B →
      (spread_loop g emo now fuel queue visited activated).length ≤ B := by
  intro fuel
  induction fuel with
  | zero => intro queue visited activated B hB hlen; exact hlen
  | succ fuel ih =>
    intro queue visited activated B hB hlen
    rw [spread_loop]
    split_ifs with hmax
    · exact hlen
    · rcases hpop : pop_min queue with _ | ⟨⟨neg_activation, depth, current_id⟩, rest⟩
      · simp only [hpop]
        exact hlen
      · simp only [hpop]
        split_ifs with hguard
        · exact ih rest visited activated B hB hlen
        · refine ih _ _ _ B hB ?_
          have hsmall : activated.length ≤ max_activated_nodes - 1 := by
            rw [max_activated_nodes] at hmax ⊢
            omega
          calc (expand_node g emo now (-neg_activation) depth current_id
                (current_id :: visited) (activated, rest)).1.length
              ≤ activated.length + (get_neighbors g current_id).length :=
                foldl_visit_length emo now (-neg_activation) depth current_id
                  (current_id :: visited) (get_neighbors g current_id) (activated, rest)
            _ ≤ (max_activated_nodes - 1) + D :=
                Nat.add_le_add hsmall (hdeg current_id)
            _ ≤ B := hB

theorem init_fold_length :
    ∀ (seeds : List (ℕ × ℝ)) (st : ActivationMap × List QueueEntry),
      ((seeds.foldl
          (fun st s => (dict_set st.1 s.1 ⟨s.2, 0, [s.1]⟩, (-s.2, 0, s.1) :: st.2))
          st).1).length ≤ st.1.length + seeds.length := by
  intro seeds
  induction seeds with
  | nil => intro st; simp
  | cons s seeds ih =>
    intro st
    rw [List.foldl_cons]
    calc _ ≤ (dict_set st.1 s.1 ⟨s.2, 0, [s.1]⟩).length + seeds.length := ih _
      _ ≤ st.1.length + 1 + seeds.length :=
          Nat.add_le_add_right (dict_set_length _ _ _) _
      _ = st.1.length + (s :: seeds).length := by simp [Nat.add_assoc, Nat.add_comm 1]

theorem pop_min_mem :
    ∀ (queue rest : List QueueEntry) (e : QueueEntry),
      pop_min queue = some (e, rest) → e ∈ queue ∧ ∀ x ∈ rest, x ∈ queue := by
  intro queue
  induction queue with
  | nil =>
    intro rest e h
    rw [pop_min] at h
    cases h
  | cons q t ih =>
    intro rest e h
    rcases hp : pop_min t with _ | ⟨m, rest2⟩
    · rw [pop_min, hp] at h
      change some (q, t) = some (e, rest) at h
      cases h
      exact ⟨List.mem_cons_self _ _, fun x hx => List.mem_cons_of_mem _ hx⟩
    · rw [pop_min, hp] at h
      change (if queue_lt m q then some (m, q :: rest2) else some (q, t))
          = some (e, rest) at h
      split_ifs at h with hlt
      · obtain ⟨hm, hr2⟩ := ih rest2 m hp
        cases h
        refine ⟨List.mem_cons_of_mem _ hm, ?_⟩
        intro x hx
        rcases List.mem_cons.mp hx with rfl | hx
        · exact List.mem_cons_self _ _
        · exact List.mem_cons_of_mem _ (hr2 x hx)
      · cases h
        exact ⟨List.mem_cons_self _ _, fun x hx => List.mem_cons_of_mem _ hx⟩

theorem visit_neighbor_invariant (emo : EmoMap) (now activation : ℝ)
    (depth current_id : ℕ) (visited : List ℕ)
    (P : ℕ × ActivationEntry → Prop) (Qp : QueueEntry → Prop)
    (st : ActivationMap × List QueueEntry) (n : Neighbor)
    (hn : ¬ propagate activation n emo now < activation_threshold →
      (∀ path : List ℕ,
        P (n.neighbor_id, ⟨propagate activation n emo now, depth + 1, path⟩)) ∧
      Qp (-propagate activation n emo now, depth + 1, n.neighbor_id))
    (hP : ∀ p ∈ st.1, P p) (hQ : ∀ e ∈ st.2, Qp e) :
    (∀ p ∈ (visit_neighbor emo now activation depth current_id visited st n).1, P p) ∧
    (∀ e ∈ (visit_neighbor emo now activation depth current_id visited st n).2, Qp e) := by
  rw [visit_neighbor]
  split_ifs with h1 h2 h3
  · exact ⟨hP, hQ⟩
  · exact ⟨hP, hQ⟩
  · constructor
    · intro p hp
      rcases dict_set_mem _ _ _ p hp with rfl | hp
      · exact (hn h2).1 _
      · exact hP p hp
    · intro e he
      rcases List.mem_cons.mp he with rfl | he
      · exact (hn h2).2
      · exact hQ e he
  · exact ⟨hP, hQ⟩

theorem foldl_visit_invariant (emo : EmoMap) (now activation : ℝ)
    (depth current_id : ℕ) (visited : List ℕ)
    (P : ℕ × ActivationEntry → Prop) (Qp : QueueEntry → Prop) :
    ∀ (ns : List Neighbor) (st : ActivationMap × List QueueEntry),
      (∀ n ∈ ns, ¬ propagate activation n emo now < activation_threshold →
        (∀ path : List ℕ,
          P (n.neighbor_id, ⟨propagate activation n emo now, depth + 1, path⟩)) ∧
        Qp (-propagate activation n emo now, depth + 1, n.neighbor_id)) →
      (∀ p ∈ st.1, P p) → (∀ e ∈ st.2, Qp e) →
      (∀ p ∈ (ns.foldl
          (visit_neighbor emo now activation depth current_id visited) st).1, P p) ∧
      (∀ e ∈ (ns.foldl
          (visit_neighbor emo now activation depth current_id visited) st).2, Qp e) := by
  intro ns
  induction ns with
  | nil => intro st _ hP hQ; exact ⟨hP, hQ⟩
  | cons n ns ih =>
    intro st hns hP hQ
    rw [List.foldl_cons]
    obtain ⟨hP2, hQ2⟩ := visit_neighbor_invariant emo now activation depth current_id
      visited P Qp st n (hns n (List.mem_cons_self n ns)) hP hQ
    exact ih _ (fun n2 hn2 => hns n2 (List.mem_cons_of_mem n hn2)) hP2 hQ2

theorem spread_loop_invariant (g : Graph) (emo : EmoMap) (now : ℝ)
    (P : ℕ × ActivationEntry → Prop) (Qp : QueueEntry → Prop)
    (hstep : ∀ (neg_activation : ℝ) (depth current_id : ℕ),
      Qp (neg_activation, depth, current_id) → depth < max_depth →
      ∀ n ∈ get_neighbors g current_id,
        ¬ propagate (-neg_activation) n emo now < activation_threshold →
        (∀ path : List ℕ,
          P (n.neighbor_id,
            ⟨propagate (-neg_activation) n emo now, depth + 1, path⟩)) ∧
        Qp (-propagate (-neg_activation) n emo now, depth + 1, n.neighbor_id)) :
    ∀ (fuel : ℕ) (queue : List QueueEntry) (visited : List ℕ)
      (activated : ActivationMap),
      (∀ p ∈ activated, P p) → (∀ e ∈ queue, Qp e) →
      ∀ p ∈ spread_loop g emo now fuel queue visited activated, P p := by
  intro fuel
  induction fuel with
  | zero => intro queue visited activated hP hQ; exact hP
  | succ fuel ih =>
    intro queue visited activated hP hQ
    rw [spread_loop]
    split_ifs with hmax
    · exact hP
    · rcases hpop : pop_min queue with _ | ⟨⟨neg_activation, depth, current_id⟩, rest⟩
      · simp only [hpop]
        exact hP
      · simp only [hpop]
        obtain ⟨hein, hsub⟩ := pop_min_mem queue rest (neg_activation, depth, current_id) hpop
        have hQrest : ∀ e ∈ rest, Qp e := fun e he => hQ e (hsub e he)
        split_ifs with hguard
        · exact ih rest visited activated hP hQrest
        · have hdepth : depth < max_depth := by
            rcases not_or.mp hguard with ⟨-, hd⟩
            omega
          obtain ⟨hP2, hQ2⟩ := foldl_visit_invariant emo now (-neg_activation) depth
            current_id (current_id :: visited) P Qp (get_neighbors g current_id)
            (activated, rest)
            (fun n hn => hstep neg_activation depth current_id (hQ _ hein) hdepth n hn)
            hP hQrest
          exact ih _ _ _ hP2 hQ2

theorem init_fold_queue (Qp : QueueEntry → Prop) :
    ∀ (seeds : List (ℕ × ℝ)) (st : ActivationMap × List QueueEntry),
      (∀ s ∈ seeds, Qp (-s.2, 0, s.1)) → (∀ e ∈ st.2, Qp e) →
      ∀ e ∈ (seeds.foldl
          (fun st s => (dict_set st.1 s.1 ⟨s.2, 0, [s.1]⟩, (-s.2, 0, s.1) :: st.2))
          st).2, Qp e := by
  intro seeds
  induction seeds with
  | nil => intro st _ hst; exact hst
  | cons s seeds ih =>
    intro st hs hst
    rw [List.foldl_cons]
    refine ih _ (fun s2 hs2 => hs s2 (List.mem_cons_of_mem s hs2)) ?_
    intro e he
    rcases List.mem_cons.mp he with rfl | he
    · exact hs s (List.mem_cons_self s seeds)
    · exact hst e he

/-- Claim C3, amended: the returned list has length at most `maxResults`;
the activated-node cap 500 is checked only between expansions, so the number
of distinct activated nodes is bounded by
`max (number of seeds) (499 + maximum neighbor-row count)` rather than by
500 itself; every seed is initially recorded at depth 0 (it can later be
re-recorded deeper when reached over an edge with a higher activation); and
every activated node whose id is not a seed id was reached along an actual
edge of the graph into it: its recorded activation is at least the
activation threshold 0.3, and equals `parent * 0.6 * edgeWeight *
emotionalMultiplier * temporalMultiplier` where the edge weight and the two
multipliers are the code's own functions evaluated on that edge's stored
data — with `edgeWeight ≤ 1` (post boost and cap), `emotionalMultiplier ∈
[1, 1.5]`, `temporalMultiplier ∈ [0.1, 1]` (the latter under the data-model
precondition that no stored timestamp lies in the future) — and where the
parent activation is itself either a seed similarity or at least the
activation threshold (it was popped from the queue, whose entries only ever
hold seed similarities or above-threshold propagations). -/
theorem spreading_activation_bounds (g : Graph) (seeds : List (ℕ × ℝ))
    (emo : EmoMap) (now : ℝ) (fuel max_results D : ℕ)
    (hdeg : ∀ id, (g.rows id).length ≤ D)
    (htime : ∀ id, ∀ row ∈ g.rows id, ∀ ts, row.timestamp = some ts → ts ≤ now) :
    (activate_memories g seeds emo now fuel max_results).length ≤ max_results ∧
    (spread_activation g seeds emo now fuel).length
        ≤ max seeds.length (max_activated_nodes - 1 + D) ∧
    (∀ p ∈ (init_state seeds).1, p.2.depth = 0) ∧
    (∀ p ∈ spread_activation g seeds emo now fuel, p.1 ∉ seeds.map Prod.fst →
      activation_threshold ≤ p.2.activation ∧
      ∃ current_id : ℕ, ∃ a : ℝ, ∃ n ∈ get_neighbors g current_id,
        n.neighbor_id = p.1 ∧
        (a ∈ seeds.map Prod.snd ∨ activation_threshold ≤ a) ∧
        p.2.activation = a * decay_factor * n.edge_weight *
          (1 + calculate_emotional_weight n.emotional_state emo *
            emotional_weight_factor) *
          calculate_temporal_weight now n.timestamp ∧
        n.edge_weight ≤ 1 ∧
        1 ≤ 1 + calculate_emotional_weight n.emotional_state emo *
          emotional_weight_factor ∧
        1 + calculate_emotional_weight n.emotional_state emo *
          emotional_weight_factor ≤ 1.5 ∧
        0.1 ≤ calculate_temporal_weight now n.timestamp ∧
        calculate_temporal_weight now n.timestamp ≤ 1) := by
  have hdeg' : ∀ id, (get_neighbors g id).length ≤ D := by
    intro id
    rw [get_neighbors, process_neighbors, List.length_map]
    exact hdeg id
  refine ⟨List.length_take_le _ _, ?_, fun p hp => (init_state_entries seeds p hp).1, ?_⟩
  · rw [spread_activation]
    refine spread_loop_length g emo now D hdeg' fuel _ [] _ _ (le_max_right _ _) ?_
    calc (init_state seeds).1.length ≤ ([] : ActivationMap).length + seeds.length :=
          init_fold_length seeds ([], [])
      _ = seeds.length := by simp
      _ ≤ _ := le_max_left _ _
  · rw [spread_activation]
    have hent : ∀ p ∈ spread_loop g emo now fuel (init_state seeds).2 []
        (init_state seeds).1,
        p.1 ∈ seeds.map Prod.fst ∨
          (activation_threshold ≤ p.2.activation ∧
            ∃ current_id : ℕ, ∃ a : ℝ, ∃ n ∈ get_neighbors g current_id,
              n.neighbor_id = p.1 ∧
              (a ∈ seeds.map Prod.snd ∨ activation_threshold ≤ a) ∧
              p.2.activation = a * decay_factor * n.edge_weight *
                (1 + calculate_emotional_weight n.emotional_state emo *
                  emotional_weight_factor) *
                calculate_temporal_weight now n.timestamp ∧
              n.edge_weight ≤ 1 ∧
              1 ≤ 1 + calculate_emotional_weight n.emotional_state emo *
                emotional_weight_factor ∧
              1 + calculate_emotional_weight n.emotional_state emo *
                emotional_weight_factor ≤ 1.5 ∧
              0.1 ≤ calculate_temporal_weight now n.timestamp ∧
              calculate_temporal_weight now n.timestamp ≤ 1) := by
      refine spread_loop_invariant g emo now
        (fun p => p.1 ∈ seeds.map Prod.fst ∨
          (activation_threshold ≤ p.2.activation ∧
            ∃ current_id : ℕ, ∃ a : ℝ, ∃ n ∈ get_neighbors g current_id,
              n.neighbor_id = p.1 ∧
              (a ∈ seeds.map Prod.snd ∨ activation_threshold ≤ a) ∧
              p.2.activation = a * decay_factor * n.edge_weight *
                (1 + calculate_emotional_weight n.emotional_state emo *
                  emotional_weight_factor) *
                calculate_temporal_weight now n.timestamp ∧
              n.edge_weight ≤ 1 ∧
              1 ≤ 1 + calculate_emotional_weight n.emotional_state emo *
                emotional_weight_factor ∧
              1 + calculate_emotional_weight n.emotional_state emo *
                emotional_weight_factor ≤ 1.5 ∧
              0.1 ≤ calculate_temporal_weight now n.timestamp ∧
              calculate_temporal_weight now n.timestamp ≤ 1))
        (fun e => -e.1 ∈ seeds.map Prod.snd ∨ activation_threshold ≤ -e.1)
        ?_ fuel _ [] _ ?_ ?_
      case refine_2 =>
        intro p hp
        exact Or.inl (init_state_entries seeds p hp).2
      case refine_3 =>
        refine init_fold_queue _ seeds ([], []) ?_ ?_
        · intro t ht
          left
          show -(-t.2) ∈ seeds.map Prod.snd
          rw [neg_neg]
          exact List.mem_map.mpr ⟨t, ht, rfl⟩
        · intro e he
          simp at he
      intro neg_activation depth current_id hq hdepth n hn hnp
      constructor
      · intro path
        refine Or.inr ⟨not_lt.mp hnp, current_id, -neg_activation, n, hn, rfl, hq, rfl,
          ?_, ?_, ?_, ?_, ?_⟩
        · rcases List.mem_map.mp hn with ⟨row, hrow, rfl⟩
          exact min_le_right _ _
        · have h0 := calculate_emotional_weight_nonneg n.emotional_state emo
          have hf : (0 : ℝ) ≤ emotional_weight_factor := by
            rw [emotional_weight_factor]; norm_num
          nlinarith
        · have h1 := calculate_emotional_weight_le_one n.emotional_state emo
          have h0 := calculate_emotional_weight_nonneg n.emotional_state emo
          rw [emotional_weight_factor]
          nlinarith
        · refine (calculate_temporal_weight_bounds now n.timestamp ?_).1
          rcases List.mem_map.mp hn with ⟨row, hrow, rfl⟩
          exact htime current_id row hrow
        · refine (calculate_temporal_weight_bounds now n.timestamp ?_).2
          rcases List.mem_map.mp hn with ⟨row, hrow, rfl⟩
          exact htime current_id row hrow
      · right
        show activation_threshold ≤ -(-propagate (-neg_activation) n emo now)
        rw [neg_neg]
        exact not_lt.mp hnp
    intro p hp hnot
    rcases hent p hp with h | h
    · exact absurd h hnot
    · exact h

end Spreading

namespace Spreading

theorem spread_loop_succ (g : Graph) (emo : EmoMap) (now : ℝ) (fuel : ℕ)
    (queue : List QueueEntry) (visited : List ℕ) (activated : ActivationMap) :
    spread_loop g emo now (fuel + 1) queue visited activated =
      if max_activated_nodes ≤ activated.length then activated
      else
        match pop_min queue with
        | none => activated
        | some ((neg_activation, depth, current_id), rest) =>
          if current_id ∈ visited ∨ max_depth ≤ depth then
            spread_loop g emo now fuel rest visited activated
          else
            let st := expand_node g emo now (-neg_activation) depth current_id
              (current_id :: visited) (activated, rest)
            spread_loop g emo now fuel st.2 (current_id :: visited) st.1 := rfl

/-- The single neighbor row of the two-node counterexample graph: node 0 is
linked to node 1 by a TEMPORALLY_RELATED edge of weight 1; node 1 carries no
emotional state and a timestamp equal to `now`. -/
noncomputable def demo_row : NeighborRow :=
  { neighbor_id := 1, emotional_state := [], timestamp := some 0,
    edge_weight := 1, relationship_type := EdgeType.temporally_related }

/-- The counterexample graph: one edge from node 0 to node 1. -/
noncomputable def demo_graph : Graph := ⟨fun id => if id = 0 then [demo_row] else []⟩

/-- The processed form of `demo_row`. -/
noncomputable def demo_neighbor : Neighbor :=
  { neighbor_id := 1, edge_weight := 1, emotional_state := [], timestamp := some 0 }

/-- The counterexample seeds: node 0 at similarity 0.9, node 1 at 0.5. -/
noncomputable def demo_seeds : List (ℕ × ℝ) := [(0, 0.9), (1, 0.5)]

theorem demo_get_neighbors_zero :
    get_neighbors demo_graph 0 = [demo_neighbor] := by
  simp [get_neighbors, demo_graph, process_neighbors, demo_row, demo_neighbor, boost_weight]

theorem demo_get_neighbors_one :
    get_neighbors demo_graph 1 = [] := by
  simp [get_neighbors, demo_graph, process_neighbors]

theorem demo_emo_weight : calculate_emotional_weight [] [] = 0 := by
  rw [calculate_emotional_weight]
  rfl

theorem demo_temporal_weight : calculate_temporal_weight 0 (some 0) = 1 := by
  show max 0.1 (Real.exp (-(1 / temporal_decay_hours) * ((0 : ℝ) - 0))) = 1
  rw [show -(1 / temporal_decay_hours) * ((0 : ℝ) - 0) = 0 by ring, Real.exp_zero]
  exact max_eq_right (by norm_num)

theorem demo_propagate : propagate 0.9 demo_neighbor [] 0 = 0.54 := by
  rw [propagate, demo_neighbor]
  simp only []
  rw [demo_emo_weight, demo_temporal_weight, decay_factor, emotional_weight_factor]
  norm_num

end Spreading

namespace Spreading

theorem spread_loop_step_stop (g : Graph) (emo : EmoMap) (now : ℝ) (fuel : ℕ)
    (queue : List QueueEntry) (visited : List ℕ) (activated : ActivationMap)
    (hlen : ¬ max_activated_nodes ≤ activated.length)
    (hpop : pop_min queue = none) :
    spread_loop g emo now (fuel + 1) queue visited activated = activated := by
  rw [spread_loop_succ, if_neg hlen, hpop]

theorem spread_loop_step_skip (g : Graph) (emo : EmoMap) (now : ℝ) (fuel : ℕ)
    (queue rest : List QueueEntry) (visited : List ℕ) (activated : ActivationMap)
    (neg_activation : ℝ) (depth current_id : ℕ)
    (hlen : ¬ max_activated_nodes ≤ activated.length)
    (hpop : pop_min queue = some ((neg_activation, depth, current_id), rest))
    (hguard : current_id ∈ visited ∨ max_depth ≤ depth) :
    spread_loop g emo now (fuel + 1) queue visited activated =
      spread_loop g emo now fuel rest visited activated := by
  rw [spread_loop_succ, if_neg hlen, hpop]
  show (if current_id ∈ visited ∨ max_depth ≤ depth then
      spread_loop g emo now fuel rest visited activated
    else
      let st := expand_node g emo now (-neg_activation) depth current_id
        (current_id :: visited) (activated, rest)
      spread_loop g emo now fuel st.2 (current_id :: visited) st.1) = _
  rw [if_pos hguard]

theorem spread_loop_step_expand (g : Graph) (emo : EmoMap) (now : ℝ) (fuel : ℕ)
    (queue rest : List QueueEntry) (visited : List ℕ) (activated : ActivationMap)
    (neg_activation : ℝ) (depth current_id : ℕ)
    (hlen : ¬ max_activated_nodes ≤ activated.length)
    (hpop : pop_min queue = some ((neg_activation, depth, current_id), rest))
    (hguard : ¬ (current_id ∈ visited ∨ max_depth ≤ depth)) :
    spread_loop g emo now (fuel + 1) queue visited activated =
      spread_loop g emo now fuel
        (expand_node g emo now (-neg_activation) depth current_id
          (current_id :: visited) (activated, rest)).2
        (current_id :: visited)
        (expand_node g emo now (-neg_activation) depth current_id
          (current_id :: visited) (activated, rest)).1 := by
  rw [spread_loop_succ, if_neg hlen, hpop]
  show (if current_id ∈ visited ∨ max_depth ≤ depth then
      spread_loop g emo now fuel rest visited activated
    else
      let st := expand_node g emo now (-neg_activation) depth current_id
        (current_id :: visited) (activated, rest)
      spread_loop g emo now fuel st.2 (current_id :: visited) st.1) = _
  rw [if_neg hguard]

theorem demo_visit :
    visit_neighbor [] 0 0.9 0 0 [0]
        (([(0, ⟨0.9, 0, [0]⟩), (1, ⟨0.5, 0, [1]⟩)] : ActivationMap),
          ([((-0.5 : ℝ), 0, 1)] : List QueueEntry)) demo_neighbor
      = ([(0, ⟨0.9, 0, [0]⟩), (1, ⟨0.54, 1, [0, 1]⟩)],
          [((-0.54 : ℝ), 1, 1), ((-0.5 : ℝ), 0, 1)]) := by
  rw [visit_neighbor, demo_propagate]
  norm_num [demo_neighbor, should_record, lookup_entry, List.lookup, dict_set,
    activation_threshold, show ((1 : ℕ) == 0) = false from rfl,
    show ((1 : ℕ) == 1) = true from rfl, show ((0 : ℕ) == 0) = true from rfl,
    show ((0 : ℕ) == 1) = false from rfl]

theorem demo_expand :
    expand_node demo_graph [] 0 0.9 0 0 [0]
        (([(0, ⟨0.9, 0, [0]⟩), (1, ⟨0.5, 0, [1]⟩)] : ActivationMap),
          ([((-0.5 : ℝ), 0, 1)] : List QueueEntry))
      = ([(0, ⟨0.9, 0, [0]⟩), (1, ⟨0.54, 1, [0, 1]⟩)],
          [((-0.54 : ℝ), 1, 1), ((-0.5 : ℝ), 0, 1)]) := by
  rw [expand_node, demo_get_neighbors_zero, List.foldl_cons, List.foldl_nil, demo_visit]

/-- Claim C3, counterexample: on a two-node graph, the seed node 1 (seeded
at similarity 0.5, depth 0) is reached from the higher seed 0 with a
propagated activation of 0.54 and is re-recorded at depth 1, so in the
returned activation data the seed node 1 does not have depth 0. -/
theorem seed_rerecorded_at_positive_depth :
    ((1 : ℕ), (0.5 : ℝ)) ∈ demo_seeds ∧
    (lookup_entry (spread_activation demo_graph demo_seeds [] 0 4) 1).map
        ActivationEntry.depth = some 1 := by
  constructor
  · rw [demo_seeds]
    exact List.mem_cons_of_mem _ (List.mem_singleton.mpr rfl)
  have hinit : init_state demo_seeds
      = ([(0, ⟨0.9, 0, [0]⟩), (1, ⟨0.5, 0, [1]⟩)],
          [((-0.5 : ℝ), 0, 1), ((-0.9 : ℝ), 0, 0)]) := by
    norm_num [init_state, demo_seeds, dict_set]
  have hlen2 : ¬ max_activated_nodes ≤
      ([(0, ⟨0.9, 0, [0]⟩), (1, ⟨0.5, 0, [1]⟩)] : ActivationMap).length := by
    norm_num [max_activated_nodes]
  have hlen2b : ¬ max_activated_nodes ≤
      ([(0, ⟨0.9, 0, [0]⟩), (1, ⟨0.54, 1, [0, 1]⟩)] : ActivationMap).length := by
    norm_num [max_activated_nodes]
  have hpop1 : pop_min [((-0.5 : ℝ), 0, 1), ((-0.9 : ℝ), 0, 0)]
      = some (((-0.9 : ℝ), 0, 0), [((-0.5 : ℝ), 0, 1)]) := by
    norm_num [pop_min, queue_lt]
  have hpop2 : pop_min [((-0.54 : ℝ), 1, 1), ((-0.5 : ℝ), 0, 1)]
      = some (((-0.54 : ℝ), 1, 1), [((-0.5 : ℝ), 0, 1)]) := by
    norm_num [pop_min, queue_lt]
  have hpop3 : pop_min [((-0.5 : ℝ), 0, 1)]
      = some (((-0.5 : ℝ), 0, 1), []) := by
    norm_num [pop_min]
  rw [spread_activation, hinit]
  show (lookup_entry (spread_loop demo_graph [] 0 4
      [((-0.5 : ℝ), 0, 1), ((-0.9 : ℝ), 0, 0)] []
      [(0, ⟨0.9, 0, [0]⟩), (1, ⟨0.5, 0, [1]⟩)]) 1).map ActivationEntry.depth = some 1
  rw [show (4 : ℕ) = 3 + 1 from rfl,
    spread_loop_step_expand demo_graph [] 0 3 _ _ [] _ (-0.9) 0 0 hlen2 hpop1
      (by norm_num [max_depth]),
    show (-(-0.9) : ℝ) = 0.9 by norm_num, demo_expand]
  rw [show (3 : ℕ) = 2 + 1 from rfl,
    spread_loop_step_expand demo_graph [] 0 2 _ _ [0] _ (-0.54) 1 1 hlen2b hpop2
      (by norm_num [max_depth]),
    expand_node, demo_get_neighbors_one, List.foldl_nil]
  rw [show (2 : ℕ) = 1 + 1 from rfl,
    spread_loop_step_skip demo_graph [] 0 1 _ _ [1, 0] _ (-0.5) 0 1 hlen2b hpop3
      (Or.inl (by norm_num))]
  rw [show (1 : ℕ) = 0 + 1 from rfl,
    spread_loop_step_stop demo_graph [] 0 0 [] [1, 0] _ hlen2b rfl]
  norm_num [lookup_entry, List.lookup, show ((1 : ℕ) == 0) = false from rfl,
    show ((1 : ℕ) == 1) = true from rfl]

/-- Witness for the amended claim C3 theorem: one seed on the two-node demo
graph, which genuinely activates the non-seed node 1 along the edge out of
the seed node 0. -/
theorem spreading_activation_bounds_witness :
    (activate_memories demo_graph [((0 : ℕ), (0.9 : ℝ))] [] 0 4 3).length ≤ 3 ∧
    (spread_activation demo_graph [((0 : ℕ), (0.9 : ℝ))] [] 0 4).length
        ≤ max ([((0 : ℕ), (0.9 : ℝ))].length) (max_activated_nodes - 1 + 1) ∧
    (∀ p ∈ (init_state [((0 : ℕ), (0.9 : ℝ))]).1, p.2.depth = 0) ∧
    (∀ p ∈ spread_activation demo_graph [((0 : ℕ), (0.9 : ℝ))] [] 0 4,
      p.1 ∉ [((0 : ℕ), (0.9 : ℝ))].map Prod.fst →
      activation_threshold ≤ p.2.activation ∧
      ∃ current_id : ℕ, ∃ a : ℝ, ∃ n ∈ get_neighbors demo_graph current_id,
        n.neighbor_id = p.1 ∧
        (a ∈ [((0 : ℕ), (0.9 : ℝ))].map Prod.snd ∨ activation_threshold ≤ a) ∧
        p.2.activation = a * decay_factor * n.edge_weight *
          (1 + calculate_emotional_weight n.emotional_state [] *
            emotional_weight_factor) *
          calculate_temporal_weight 0 n.timestamp ∧
        n.edge_weight ≤ 1 ∧
        1 ≤ 1 + calculate_emotional_weight n.emotional_state [] *
          emotional_weight_factor ∧
        1 + calculate_emotional_weight n.emotional_state [] *
          emotional_weight_factor ≤ 1.5 ∧
        0.1 ≤ calculate_temporal_weight 0 n.timestamp ∧
        calculate_temporal_weight 0 n.timestamp ≤ 1) :=
  spreading_activation_bounds demo_graph [((0 : ℕ), (0.9 : ℝ))] [] 0 4 3 1
    (fun id => by by_cases h : id = 0 <;> simp [demo_graph, h])
    (fun id row hrow ts hts => by
      by_cases h : id = 0
      · simp [demo_graph, h] at hrow
        subst hrow
        simp [demo_row] at hts
        exact le_of_eq hts.symm
      · simp [demo_graph, h] at hrow)

end Spreading
